import Mathlib

/-!
Verification of the FAD tracks builder (`build_fad_tracks.py`).

The script ingests buoy-fix CSV batches, merges them into a cumulative
archive `all_points.csv` deduplicated by `(buoy_id, timestamp)`, classifies
each archived point against two optional polygons, partitions buoys into
active/inactive by recency of their last fix, and derives the latest fix
per active buoy.

This file shallowly embeds those operations:
* floats are modelled as `ℚ`, timestamps as `ℤ` (a totally ordered time axis);
* a pandas `DataFrame` of fixes is a `List Fix`;
* `drop_duplicates(subset=key, keep='last')` / `keep='first'` become the
  recursive functions `dedupLast` / `dedupFirst`;
* `sort_values` (pandas quicksort, whose order on ties is unspecified)
  is modelled by a deterministic comparison sort; claims about archive
  contents are proved order-insensitively (up to permutation), and claims
  needing sortedness use only properties every comparison sort has;
* the shapely point-in-polygon predicates used by `inside_any` are modelled
  over `ℚ` (for a point argument, `contains` means membership in the open
  interior and `touches` means membership in the boundary);
* the `in_area` column is recomputed from scratch for the whole archive on
  every run (line 304 of the source sets it to `False` unconditionally
  before classification) and does not take part in the dedup key, so the
  merge is modelled on the six data columns and the classification result
  is carried alongside each row as a `Bool`.
-/

namespace FadTracks

/-- One positional fix: the six data columns of the archive
(`buoy_id, timestamp, lat, lon, speed_kn, course_deg`).
`speed_kn` / `course_deg` are `Option` because `pd.to_numeric(..., errors='coerce')`
may leave them missing without disqualifying the row. -/
structure Fix where
  buoy_id : String
  timestamp : Int
  lat : Rat
  lon : Rat
  speed_kn : Option Rat
  course_deg : Option Rat
deriving DecidableEq, Repr

/-- The dedup key used by `drop_duplicates(subset=['buoy_id', 'timestamp'])`. -/
def fixKey (r : Fix) : String × Int := (r.buoy_id, r.timestamp)

/-- `drop_duplicates(subset, keep='last')`: keep a row iff no later row has
the same key, preserving the order of the kept (last) occurrences. -/
def dedupLast {α κ : Type} [DecidableEq κ] (key : α → κ) : List α → List α
  | [] => []
  | x :: xs =>
    if xs.any (fun y => key y = key x) then dedupLast key xs
    else x :: dedupLast key xs

/-- Worker for `dedupFirst`: `seen` accumulates the keys already kept. -/
def dedupFirstAux {α κ : Type} [DecidableEq κ] (key : α → κ) : List κ → List α → List α
  | _, [] => []
  | seen, x :: xs =>
    if key x ∈ seen then dedupFirstAux key seen xs
    else x :: dedupFirstAux key (key x :: seen) xs

/-- `drop_duplicates(subset, keep='first')`: keep the first occurrence of
each key, dropping every later row with an already-seen key. -/
def dedupFirst {α κ : Type} [DecidableEq κ] (key : α → κ) (l : List α) : List α :=
  dedupFirstAux key [] l

/-- `sort_values('timestamp', ascending=False)` on the archive
(newest first).  pandas' default quicksort leaves the relative order of
equal timestamps unspecified; any comparison sort is a faithful model up
to that unspecified tie order. -/
def sortTsDesc (l : List Fix) : List Fix :=
  l.insertionSort (fun a b => b.timestamp ≤ a.timestamp)

/-- The state of the persisted archive found at the start of a run:
no `all_points.csv` on disk, a file that `pd.read_csv` fails to read
(the `except` branch), or a successfully parsed list of rows. -/
inductive ExistingArchive where
  | absent
  | unreadable (err : String)
  | present (rows : List Fix)

/-- The merge of the incoming batch into the existing archive
(source lines 286-298): concatenate existing rows first, incoming second,
and dedup by `(buoy_id, timestamp)` keeping the last occurrence; an absent
or unreadable archive contributes no rows. -/
def mergeIntoArchive : ExistingArchive → List Fix → List Fix
  | .absent, incoming => incoming
  | .unreadable _, incoming => incoming
  | .present rows, incoming => dedupLast fixKey (rows ++ incoming)

/-- The archive as persisted at the end of the merge step
(source lines 286-301): merged rows sorted newest first. -/
def archiveAfterMerge (existing : ExistingArchive) (incoming : List Fix) : List Fix :=
  sortTsDesc (mergeIntoArchive existing incoming)

/-- The condition reported for this run's archive read
(the warning printed by the `except` branch, source line 294); `none` when
the read did not fail. -/
def mergeWarning : ExistingArchive → Option String
  | .unreadable err => some ("Could not read existing all_points.csv: " ++ err)
  | _ => none

-- ---------------------------------------------------------------------------
-- Basic lemmas about dedupLast
-- ---------------------------------------------------------------------------

theorem mem_of_mem_dedupLast {α κ : Type} [DecidableEq κ] (key : α → κ) :
    ∀ {l : List α} {r : α}, r ∈ dedupLast key l → r ∈ l := by
  intro l
  induction l with
  | nil => intro r h; simp [dedupLast] at h
  | cons x xs ih =>
    intro r h
    by_cases hx : (xs.any fun y => key y = key x) = true
    · rw [dedupLast, if_pos hx] at h
      exact List.mem_cons_of_mem _ (ih h)
    · rw [dedupLast, if_neg hx] at h
      rcases List.mem_cons.mp h with h | h
      · exact h ▸ List.mem_cons_self _ _
      · exact List.mem_cons_of_mem _ (ih h)

/-- The keys of `dedupLast` output are pairwise distinct. -/
theorem pairwise_key_dedupLast {α κ : Type} [DecidableEq κ] (key : α → κ) :
    ∀ l : List α, (dedupLast key l).Pairwise (fun r s => key r ≠ key s) := by
  intro l
  induction l with
  | nil => simp [dedupLast]
  | cons x xs ih =>
    by_cases hx : (xs.any fun y => key y = key x) = true
    · rw [dedupLast, if_pos hx]; exact ih
    · rw [dedupLast, if_neg hx]
      refine List.Pairwise.cons ?_ ih
      intro s hs hkey
      have hmem : s ∈ xs := mem_of_mem_dedupLast key hs
      exact hx (List.any_eq_true.mpr ⟨s, hmem, by simp [hkey]⟩)

/-- `(x :: l).getLast? = l.getLast?` for nonempty `l`. -/
theorem getLast?_cons_of_ne_nil' {α : Type} {l : List α} (h : l ≠ []) (x : α) :
    (x :: l).getLast? = l.getLast? := by
  cases l with
  | nil => exact absurd rfl h
  | cons y ys => exact List.getLast?_cons_cons

/-- Characterisation of membership in `dedupLast`: `r` survives iff `r` is
the last element of the list carrying its key. -/
theorem mem_dedupLast_iff {α κ : Type} [DecidableEq κ] (key : α → κ) :
    ∀ (l : List α) (r : α),
      r ∈ dedupLast key l ↔ (l.filter (fun x => key x = key r)).getLast? = some r := by
  intro l
  induction l with
  | nil => intro r; simp [dedupLast]
  | cons x xs ih =>
    intro r
    by_cases hx : (xs.any fun y => key y = key x) = true
    · rw [dedupLast, if_pos hx]
      by_cases hk : key x = key r
      · obtain ⟨y, hy, hyk⟩ := List.any_eq_true.mp hx
        have hyk' : key y = key r := by
          have := of_decide_eq_true hyk
          rw [this, hk]
        have hne : xs.filter (fun z => key z = key r) ≠ [] := by
          intro hnil
          have : y ∈ xs.filter (fun z => key z = key r) :=
            List.mem_filter.mpr ⟨hy, by simp [hyk']⟩
          rw [hnil] at this
          exact (List.not_mem_nil _) this
        rw [List.filter_cons, if_pos (by simp [hk]), getLast?_cons_of_ne_nil' hne]
        exact ih r
      · rw [List.filter_cons, if_neg (by simp [hk])]
        exact ih r
    · rw [dedupLast, if_neg hx]
      by_cases hk : key x = key r
      · have hfil : xs.filter (fun z => key z = key r) = [] := by
          rw [List.filter_eq_nil_iff]
          intro z hz
          simp only [decide_eq_true_eq]
          intro hzk
          exact hx (List.any_eq_true.mpr ⟨z, hz, by simp [hzk, ← hk]⟩)
        rw [List.filter_cons, if_pos (by simp [hk]), hfil]
        constructor
        · intro hmem
          rcases List.mem_cons.mp hmem with h | h
          · simp [h]
          · exfalso
            have hmx : r ∈ xs := mem_of_mem_dedupLast key h
            have : r ∈ xs.filter (fun z => key z = key r) :=
              List.mem_filter.mpr ⟨hmx, by simp⟩
            rw [hfil] at this
            exact (List.not_mem_nil _) this
        · intro hlast
          have hxr : x = r := by simpa using hlast
          simp [hxr]
      · rw [List.filter_cons, if_neg (by simp [hk])]
        constructor
        · intro hmem
          rcases List.mem_cons.mp hmem with h | h
          · exact absurd (congrArg key h.symm) hk
          · exact (ih r).mp h
        · intro hlast
          exact List.mem_cons_of_mem _ ((ih r).mpr hlast)

theorem nodup_dedupLast {α κ : Type} [DecidableEq κ] (key : α → κ) (l : List α) :
    (dedupLast key l).Nodup :=
  (pairwise_key_dedupLast key l).imp (fun h heq => h (congrArg key heq))

theorem mem_of_getLast?_eq {α : Type} {l : List α} {r : α} (h : l.getLast? = some r) :
    r ∈ l := by
  have h' : r ∈ l.getLast? := by rw [Option.mem_def]; exact h
  obtain ⟨hne, heq⟩ := List.mem_getLast?_eq_getLast h'
  exact heq ▸ List.getLast_mem hne

/-- In a list with pairwise-distinct keys, filtering for the key of a member
yields exactly that member. -/
theorem filter_key_singleton {α κ : Type} [DecidableEq κ] (key : α → κ) :
    ∀ {l : List α} {r : α}, l.Pairwise (fun a b => key a ≠ key b) → r ∈ l →
      l.filter (fun x => key x = key r) = [r] := by
  intro l
  induction l with
  | nil => intro r _ hr; exact absurd hr (List.not_mem_nil r)
  | cons x xs ih =>
    intro r hp hr
    have hx := (List.pairwise_cons.mp hp).1
    have hxs := (List.pairwise_cons.mp hp).2
    rcases List.mem_cons.mp hr with h | h
    · subst h
      rw [List.filter_cons, if_pos (by simp)]
      have : xs.filter (fun x => key x = key r) = [] := by
        rw [List.filter_eq_nil_iff]
        intro z hz
        simp only [decide_eq_true_eq]
        exact fun hzk => hx z hz hzk.symm
      rw [this]
    · have hne : key x ≠ key r := hx r h
      rw [List.filter_cons, if_neg (by simp [hne])]
      exact ih hxs h

/-- Re-merging the same batch `B` into any permutation `M` of an already
merged archive leaves the merged rows unchanged up to permutation. -/
theorem dedupLast_append_perm_of_perm {α κ : Type} [DecidableEq α] [DecidableEq κ]
    (key : α → κ) (A B M : List α) (hM : M.Perm (dedupLast key (A ++ B))) :
    (dedupLast key (M ++ B)).Perm (dedupLast key (A ++ B)) := by
  rw [List.perm_ext_iff_of_nodup (nodup_dedupLast key (M ++ B)) (nodup_dedupLast key (A ++ B))]
  intro r
  rw [mem_dedupLast_iff, List.filter_append]
  by_cases hB : B.filter (fun x => key x = key r) = []
  · rw [hB, List.append_nil]
    constructor
    · intro h
      have hrM : r ∈ M := (List.mem_filter.mp (mem_of_getLast?_eq h)).1
      exact hM.mem_iff.mp hrM
    · intro h
      have hfD : (dedupLast key (A ++ B)).filter (fun x => key x = key r) = [r] :=
        filter_key_singleton key (pairwise_key_dedupLast key _) h
      have hperm : (M.filter (fun x => key x = key r)).Perm
          ((dedupLast key (A ++ B)).filter (fun x => key x = key r)) := hM.filter _
      rw [hfD] at hperm
      rw [List.perm_singleton.mp hperm]
      rfl
  · rw [List.getLast?_append_of_ne_nil _ hB]
    rw [mem_dedupLast_iff, List.filter_append, List.getLast?_append_of_ne_nil _ hB]

-- ---------------------------------------------------------------------------
-- Claims about the archive merge (C2, C3, C8)
-- ---------------------------------------------------------------------------

/-- C2: the archive merge is idempotent.  For every existing archive `A` and
incoming batch `B`, merging `B`, persisting the result, and merging the same
`B` again into it yields the same archive rows (same rows, no duplicate
growth) as merging `B` once.  Row contents are compared up to permutation
because the persisted order on equal timestamps is left unspecified by the
source's unstable sort. -/
theorem claim_C2_merge_idempotent (A B : List Fix) :
    (archiveAfterMerge (.present (archiveAfterMerge (.present A) B)) B).Perm
      (archiveAfterMerge (.present A) B) := by
  show (sortTsDesc (dedupLast fixKey (sortTsDesc (dedupLast fixKey (A ++ B)) ++ B))).Perm
    (sortTsDesc (dedupLast fixKey (A ++ B)))
  have hM : (sortTsDesc (dedupLast fixKey (A ++ B))).Perm (dedupLast fixKey (A ++ B)) :=
    List.perm_insertionSort _ _
  have h1 : (sortTsDesc (dedupLast fixKey (sortTsDesc (dedupLast fixKey (A ++ B)) ++ B))).Perm
      (dedupLast fixKey (sortTsDesc (dedupLast fixKey (A ++ B)) ++ B)) :=
    List.perm_insertionSort _ _
  have h2 := dedupLast_append_perm_of_perm fixKey A B _ hM
  exact (h1.trans h2).trans hM.symm

/-- C3: after every merge of an existing archive with an incoming batch the
resulting archive has at most one row per `(buoy_id, timestamp)` key, and a
key that occurs in the incoming batch survives with the incoming row (a
member of the batch), not the archived one. -/
theorem claim_C3_dedup_last_write_wins (A B : List Fix) :
    (archiveAfterMerge (.present A) B).Pairwise (fun r s => fixKey r ≠ fixKey s) ∧
    (∀ r ∈ archiveAfterMerge (.present A) B, (∃ b ∈ B, fixKey b = fixKey r) → r ∈ B) := by
  have hsort : (archiveAfterMerge (.present A) B).Perm (dedupLast fixKey (A ++ B)) :=
    List.perm_insertionSort _ _
  constructor
  · exact (hsort.pairwise_iff (fun h heq => h heq.symm)).mpr (pairwise_key_dedupLast fixKey _)
  · intro r hr hex
    have hrd : r ∈ dedupLast fixKey (A ++ B) := hsort.mem_iff.mp hr
    have hlast := (mem_dedupLast_iff fixKey (A ++ B) r).mp hrd
    rw [List.filter_append] at hlast
    obtain ⟨b, hb, hkb⟩ := hex
    have hBne : B.filter (fun x => fixKey x = fixKey r) ≠ [] := by
      intro hnil
      have : b ∈ B.filter (fun x => fixKey x = fixKey r) :=
        List.mem_filter.mpr ⟨hb, by simp [hkb]⟩
      rw [hnil] at this
      exact (List.not_mem_nil _) this
    rw [List.getLast?_append_of_ne_nil _ hBne] at hlast
    exact (List.mem_filter.mp (mem_of_getLast?_eq hlast)).1

/-- An archived row: key `("BUOY1", 100)`, stale payload. -/
def staleRow : Fix := ⟨"BUOY1", 100, 1, 2, none, none⟩

/-- An incoming row with the same key as `staleRow` but corrected payload. -/
def freshRow : Fix := ⟨"BUOY1", 100, 3, 4, some 5, none⟩

theorem claim_C3_witness :
    freshRow ∈ ([freshRow] : List Fix) ∧
    archiveAfterMerge (.present [staleRow]) [freshRow] = [freshRow] :=
  ⟨(claim_C3_dedup_last_write_wins [staleRow] [freshRow]).2 freshRow
      (by decide) ⟨freshRow, by simp, rfl⟩,
    by decide⟩

/-- C8: when the existing archive file is present but unreadable, the run
treats it as absent: the merge step totally evaluates (never raises), the
condition is reported, and the resulting archive consists of the incoming
batch alone — the corrupt content contributes no rows. -/
theorem claim_C8_corrupt_archive_treated_absent (err : String) (incoming : List Fix) :
    (archiveAfterMerge (.unreadable err) incoming).Perm incoming ∧
    (mergeWarning (.unreadable err)).isSome = true := by
  constructor
  · show (sortTsDesc incoming).Perm incoming
    exact List.perm_insertionSort _ _
  · rfl

-- ---------------------------------------------------------------------------
-- Activity window engine (source lines 318-337)
-- ---------------------------------------------------------------------------

/-- `cutoff = pd.Timestamp.now() - pd.Timedelta(days=args.active_days)`,
with the time axis in seconds. -/
def cutoffOf (now activeDays : Int) : Int := now - activeDays * 86400

/-- Maximum of a list of timestamps (`groupby(...)['timestamp'].max()` for
one group); `none` on the empty list. -/
def maxTs : List Int → Option Int
  | [] => none
  | t :: ts => some (ts.foldl max t)

/-- The distinct buoy ids occurring in the archive. -/
def buoyIds (archive : List Fix) : List String := (archive.map (·.buoy_id)).dedup

/-- `last_seen` for one buoy: the maximum timestamp over all of its archived
rows (`df_all.groupby('buoy_id')['timestamp'].max()`). -/
def lastSeenOf (archive : List Fix) (id : String) : Option Int :=
  maxTs ((archive.filter (fun r => r.buoy_id = id)).map (·.timestamp))

/-- The `last_seen` table: one `(buoy_id, last_seen)` entry per distinct
buoy in the archive. -/
def lastSeenTable (archive : List Fix) : List (String × Int) :=
  (buoyIds archive).filterMap (fun id => (lastSeenOf archive id).map (fun t => (id, t)))

/-- `active_ids = set(last_seen[last_seen['last_seen'] >= cutoff]['buoy_id'])`. -/
def activeIds (archive : List Fix) (cutoff : Int) : List String :=
  ((lastSeenTable archive).filter (fun e => cutoff ≤ e.2)).map (·.1)

/-- `inactive = last_seen[~last_seen['buoy_id'].isin(active_ids)].sort_values('last_seen')`:
the remaining `(buoy_id, last_seen)` entries, ordered by ascending `last_seen`. -/
def inactiveEntries (archive : List Fix) (cutoff : Int) : List (String × Int) :=
  ((lastSeenTable archive).filter (fun e => e.1 ∉ activeIds archive cutoff)).insertionSort
    (fun a b => a.2 ≤ b.2)

/-- `df_active = df_all[df_all['buoy_id'].isin(active_ids)]`. -/
def activeRows (archive : List Fix) (cutoff : Int) : List Fix :=
  archive.filter (fun r => r.buoy_id ∈ activeIds archive cutoff)

/-- Final `.sort_values('buoy_id')` applied to the latest-fix view. -/
def sortByBuoy (l : List Fix) : List Fix :=
  l.insertionSort (fun a b => a.buoy_id ≤ b.buoy_id)

/-- The latest-fix-per-active-buoy view (source lines 335-337):
sort the active rows newest first, keep the first row per buoy,
then order by buoy id. -/
def latestRows (archive : List Fix) (cutoff : Int) : List Fix :=
  sortByBuoy (dedupFirst (fun r => r.buoy_id) (sortTsDesc (activeRows archive cutoff)))

-- ---------------------------------------------------------------------------
-- Lemmas about maxTs, lastSeenTable, dedupFirst
-- ---------------------------------------------------------------------------

theorem foldl_max_mem : ∀ (ts : List Int) (a : Int), ts.foldl max a = a ∨ ts.foldl max a ∈ ts := by
  intro ts
  induction ts with
  | nil => intro a; left; rfl
  | cons t ts ih =>
    intro a
    rcases ih (max a t) with h | h
    · rcases max_choice a t with hm | hm
      · left; rw [List.foldl_cons, h, hm]
      · right; rw [List.foldl_cons, h, hm]; exact List.mem_cons_self _ _
    · right; exact List.mem_cons_of_mem _ h

theorem le_foldl_max_self : ∀ (ts : List Int) (a : Int), a ≤ ts.foldl max a := by
  intro ts
  induction ts with
  | nil => intro a; exact le_refl a
  | cons t ts ih => intro a; exact le_trans (le_max_left a t) (ih (max a t))

theorem le_foldl_max_of_mem : ∀ (ts : List Int) (a x : Int), x ∈ ts → x ≤ ts.foldl max a := by
  intro ts
  induction ts with
  | nil => intro a x hx; exact absurd hx (List.not_mem_nil x)
  | cons t ts ih =>
    intro a x hx
    rcases List.mem_cons.mp hx with h | h
    · subst h
      rw [List.foldl_cons]
      exact le_trans (le_max_right a x) (le_foldl_max_self ts (max a x))
    · rw [List.foldl_cons]
      exact ih (max a t) x h

/-- `maxTs l = some m` returns a member of `l` that dominates every member. -/
theorem maxTs_spec {l : List Int} {m : Int} (h : maxTs l = some m) :
    m ∈ l ∧ ∀ x ∈ l, x ≤ m := by
  cases l with
  | nil => simp [maxTs] at h
  | cons t ts =>
    have hm : m = ts.foldl max t := by simpa [maxTs] using h.symm
    constructor
    · rcases foldl_max_mem ts t with h' | h'
      · rw [hm, h']; exact List.mem_cons_self _ _
      · rw [hm]; exact List.mem_cons_of_mem _ h'
    · intro x hx
      rcases List.mem_cons.mp hx with h' | h'
      · rw [hm, h']; exact le_foldl_max_self ts t
      · rw [hm]; exact le_foldl_max_of_mem ts t x h'

/-- A member that dominates every member is the `maxTs`. -/
theorem maxTs_eq_some {l : List Int} {t : Int} (hmem : t ∈ l) (hub : ∀ x ∈ l, x ≤ t) :
    maxTs l = some t := by
  cases l with
  | nil => exact absurd hmem (List.not_mem_nil t)
  | cons a ts =>
    obtain ⟨hm, hub'⟩ := maxTs_spec (l := a :: ts) (m := ts.foldl max a) rfl
    have h1 : ts.foldl max a ≤ t := hub _ hm
    have h2 : t ≤ ts.foldl max a := hub' t hmem
    simp [maxTs, le_antisymm h1 h2]

theorem mem_lastSeenTable_iff (archive : List Fix) (id : String) (t : Int) :
    (id, t) ∈ lastSeenTable archive ↔
      id ∈ buoyIds archive ∧ lastSeenOf archive id = some t := by
  constructor
  · intro h
    obtain ⟨a, ha, hf⟩ := List.mem_filterMap.mp h
    obtain ⟨u, hu, heq⟩ := Option.map_eq_some'.mp hf
    have ha' : a = id := (Prod.mk.injEq _ _ _ _ ▸ heq).1
    have hu' : u = t := (Prod.mk.injEq _ _ _ _ ▸ heq).2
    exact ⟨ha' ▸ ha, by rw [← ha', hu, hu']⟩
  · intro ⟨h1, h2⟩
    exact List.mem_filterMap.mpr ⟨id, h1, by rw [h2]; rfl⟩

theorem lastSeenOf_mem_buoyIds {archive : List Fix} {id : String} {t : Int}
    (h : lastSeenOf archive id = some t) : id ∈ buoyIds archive := by
  have hmem := (maxTs_spec h).1
  obtain ⟨r, hr, hrt⟩ := List.mem_map.mp hmem
  have hrf := List.mem_filter.mp hr
  have hrid : r.buoy_id = id := by simpa using hrf.2
  exact List.mem_dedup.mpr (List.mem_map.mpr ⟨r, hrf.1, hrid⟩)

/-- Membership in `active_ids`, characterised by the buoy's `last_seen`. -/
theorem mem_activeIds_iff {archive : List Fix} {cutoff : Int} {id : String} {t : Int}
    (h : lastSeenOf archive id = some t) :
    id ∈ activeIds archive cutoff ↔ cutoff ≤ t := by
  constructor
  · intro hmem
    obtain ⟨e, he, he1⟩ := List.mem_map.mp hmem
    have hef := List.mem_filter.mp he
    have hface : e = (id, e.2) := by rw [← he1]
    have htab := (mem_lastSeenTable_iff archive id e.2).mp (hface ▸ hef.1)
    have : e.2 = t := by
      have := htab.2.symm.trans h
      simpa using this
    have hle : cutoff ≤ e.2 := by simpa using hef.2
    exact this ▸ hle
  · intro hle
    have htab : (id, t) ∈ lastSeenTable archive :=
      (mem_lastSeenTable_iff archive id t).mpr ⟨lastSeenOf_mem_buoyIds h, h⟩
    exact List.mem_map.mpr ⟨(id, t), List.mem_filter.mpr ⟨htab, by simpa using hle⟩, rfl⟩

/-- Membership in the inactive list, characterised by the buoy's `last_seen`. -/
theorem mem_inactiveIds_iff {archive : List Fix} {cutoff : Int} {id : String} {t : Int}
    (h : lastSeenOf archive id = some t) :
    id ∈ (inactiveEntries archive cutoff).map (fun e => e.1) ↔ t < cutoff := by
  constructor
  · intro hmem
    obtain ⟨e, he, he1⟩ := List.mem_map.mp hmem
    have he' : e ∈ (lastSeenTable archive).filter
        (fun e => decide (e.1 ∉ activeIds archive cutoff)) :=
      (List.mem_insertionSort _).mp he
    have hef := List.mem_filter.mp he'
    have hnact : id ∉ activeIds archive cutoff := by
      have := of_decide_eq_true hef.2
      exact he1 ▸ this
    by_contra hlt
    push_neg at hlt
    exact hnact ((mem_activeIds_iff h).mpr hlt)
  · intro hlt
    have hnact : id ∉ activeIds archive cutoff := by
      intro hact
      exact absurd ((mem_activeIds_iff h).mp hact) (not_le.mpr hlt)
    have htab : (id, t) ∈ lastSeenTable archive :=
      (mem_lastSeenTable_iff archive id t).mpr ⟨lastSeenOf_mem_buoyIds h, h⟩
    refine List.mem_map.mpr ⟨(id, t), ?_, rfl⟩
    exact (List.mem_insertionSort _).mpr
      (List.mem_filter.mpr ⟨htab, by simpa using hnact⟩)

theorem mem_of_mem_dedupFirstAux {α κ : Type} [DecidableEq κ] (key : α → κ) :
    ∀ (seen : List κ) (l : List α) (r : α), r ∈ dedupFirstAux key seen l → r ∈ l := by
  intro seen l
  induction l generalizing seen with
  | nil => intro r h; simp [dedupFirstAux] at h
  | cons x xs ih =>
    intro r h
    by_cases hx : key x ∈ seen
    · rw [dedupFirstAux, if_pos hx] at h
      exact List.mem_cons_of_mem _ (ih seen r h)
    · rw [dedupFirstAux, if_neg hx] at h
      rcases List.mem_cons.mp h with h | h
      · exact h ▸ List.mem_cons_self _ _
      · exact List.mem_cons_of_mem _ (ih _ r h)

theorem mem_of_mem_dedupFirst {α κ : Type} [DecidableEq κ] (key : α → κ)
    (l : List α) (r : α) (h : r ∈ dedupFirst key l) : r ∈ l :=
  mem_of_mem_dedupFirstAux key [] l r h

/-- Keys already seen never re-enter the output of `dedupFirstAux`. -/
theorem key_not_seen_of_mem_dedupFirstAux {α κ : Type} [DecidableEq κ] (key : α → κ) :
    ∀ (seen : List κ) (l : List α) (r : α), r ∈ dedupFirstAux key seen l → key r ∉ seen := by
  intro seen l
  induction l generalizing seen with
  | nil => intro r h; simp [dedupFirstAux] at h
  | cons x xs ih =>
    intro r h
    by_cases hx : key x ∈ seen
    · rw [dedupFirstAux, if_pos hx] at h
      exact ih seen r h
    · rw [dedupFirstAux, if_neg hx] at h
      rcases List.mem_cons.mp h with h | h
      · exact h ▸ hx
      · intro hmem
        exact ih _ r h (List.mem_cons_of_mem _ hmem)

/-- In a list sorted by descending timestamp, each survivor of
`drop_duplicates(keep='first')` dominates every element sharing its key. -/
theorem dedupFirstAux_dominates {α κ : Type} [DecidableEq κ] (key : α → κ) (ts : α → Int) :
    ∀ (seen : List κ) (l : List α), l.Sorted (fun a b => ts b ≤ ts a) →
      ∀ r ∈ dedupFirstAux key seen l, ∀ s ∈ l, key s = key r → ts s ≤ ts r := by
  intro seen l
  induction l generalizing seen with
  | nil => intro _ r _ s hs; exact absurd hs (List.not_mem_nil _)
  | cons x xs ih =>
    intro hsorted r hr s hs hk
    have hhead : ∀ y ∈ xs, ts y ≤ ts x := (List.pairwise_cons.mp hsorted).1
    have htail : xs.Sorted (fun a b => ts b ≤ ts a) := (List.pairwise_cons.mp hsorted).2
    by_cases hx : key x ∈ seen
    · rw [dedupFirstAux, if_pos hx] at hr
      rcases List.mem_cons.mp hs with hsx | hsx
      · exfalso
        have : key r ∉ seen := key_not_seen_of_mem_dedupFirstAux key seen xs r hr
        exact this (hk ▸ hsx ▸ hx)
      · exact ih seen htail r hr s hsx hk
    · rw [dedupFirstAux, if_neg hx] at hr
      rcases List.mem_cons.mp hr with hrx | hrd
      · subst hrx
        rcases List.mem_cons.mp hs with hsx | hsx
        · exact hsx ▸ le_refl _
        · exact hhead s hsx
      · have hrk : key r ≠ key x := by
          have := key_not_seen_of_mem_dedupFirstAux key _ xs r hrd
          intro hcon
          exact this (hcon ▸ List.mem_cons_self _ _)
        rcases List.mem_cons.mp hs with hsx | hsx
        · exfalso
          have hxr : key x = key r := by rw [← hsx]; exact hk
          exact hrk hxr.symm
        · exact ih _ htail r hrd s hsx hk

-- ---------------------------------------------------------------------------
-- Claims about the activity window (C5, C6, C9)
-- ---------------------------------------------------------------------------

/-- C5: the activity partition is total and exclusive — every buoy id that
occurs in the archive is in exactly one of the active set and the inactive
list, for every cutoff. -/
theorem claim_C5_partition_total_exclusive (archive : List Fix) (cutoff : Int) (id : String)
    (h : ∃ r ∈ archive, r.buoy_id = id) :
    (id ∈ activeIds archive cutoff ∧
        id ∉ (inactiveEntries archive cutoff).map (fun e => e.1)) ∨
    (id ∉ activeIds archive cutoff ∧
        id ∈ (inactiveEntries archive cutoff).map (fun e => e.1)) := by
  obtain ⟨r, hr, hrid⟩ := h
  have hfil : r ∈ archive.filter (fun r => r.buoy_id = id) :=
    List.mem_filter.mpr ⟨hr, by simp [hrid]⟩
  obtain ⟨t, ht⟩ : ∃ t, lastSeenOf archive id = some t := by
    unfold lastSeenOf
    cases hmap : (archive.filter (fun r => r.buoy_id = id)).map (fun r => r.timestamp) with
    | nil =>
      exfalso
      have : r.timestamp ∈ (archive.filter (fun r => r.buoy_id = id)).map
          (fun r => r.timestamp) := List.mem_map.mpr ⟨r, hfil, rfl⟩
      rw [hmap] at this
      exact (List.not_mem_nil _) this
    | cons a ts => exact ⟨ts.foldl max a, rfl⟩
  by_cases hc : cutoff ≤ t
  · left
    refine ⟨(mem_activeIds_iff ht).mpr hc, ?_⟩
    intro hmem
    exact absurd hc (not_le.mpr ((mem_inactiveIds_iff ht).mp hmem))
  · right
    have hlt : t < cutoff := not_le.mp hc
    exact ⟨fun hact => hc ((mem_activeIds_iff ht).mp hact),
      (mem_inactiveIds_iff ht).mpr hlt⟩

/-- A one-fix archive used to witness the activity-window claims. -/
def soloRow : Fix := ⟨"BUOY1", 100, 0, 0, none, none⟩

theorem claim_C5_witness :
    ("BUOY1" ∈ activeIds [soloRow] 50 ∧
        "BUOY1" ∉ (inactiveEntries [soloRow] 50).map (fun e => e.1)) ∨
    ("BUOY1" ∉ activeIds [soloRow] 50 ∧
        "BUOY1" ∈ (inactiveEntries [soloRow] 50).map (fun e => e.1)) :=
  claim_C5_partition_total_exclusive [soloRow] 50 "BUOY1" ⟨soloRow, by simp, rfl⟩

/-- C6: the activity cutoff boundary is inclusive — with
`cutoff = now - activeDays` (in seconds), a buoy whose `last_seen` satisfies
`cutoff ≤ last_seen` is active (in particular when `last_seen = cutoff`
exactly), and a buoy with `last_seen < cutoff` is inactive. -/
theorem claim_C6_cutoff_boundary_inclusive (archive : List Fix) (now activeDays : Int)
    (id : String) (t : Int) (h : lastSeenOf archive id = some t) :
    (cutoffOf now activeDays ≤ t ↔ id ∈ activeIds archive (cutoffOf now activeDays)) ∧
    (t < cutoffOf now activeDays ↔
        id ∈ (inactiveEntries archive (cutoffOf now activeDays)).map (fun e => e.1)) :=
  ⟨(mem_activeIds_iff h).symm, (mem_inactiveIds_iff h).symm⟩

theorem claim_C6_witness :
    ((cutoffOf 604900 7 ≤ 100 ↔ "BUOY1" ∈ activeIds [soloRow] (cutoffOf 604900 7)) ∧
      (100 < cutoffOf 604900 7 ↔
        "BUOY1" ∈ (inactiveEntries [soloRow] (cutoffOf 604900 7)).map (fun e => e.1))) ∧
    cutoffOf 604900 7 = 100 ∧ "BUOY1" ∈ activeIds [soloRow] 100 :=
  ⟨claim_C6_cutoff_boundary_inclusive [soloRow] 604900 7 "BUOY1" 100 (by decide),
    by decide, by decide⟩

instance : IsTotal Fix (fun a b => b.timestamp ≤ a.timestamp) :=
  ⟨fun a b => le_total b.timestamp a.timestamp⟩

instance : IsTrans Fix (fun a b => b.timestamp ≤ a.timestamp) :=
  ⟨fun _ _ _ h1 h2 => le_trans h2 h1⟩

/-- C9: every row selected into the latest-fix-per-active-buoy view carries
that buoy's `last_seen` timestamp — the groupby-max over the *full* archive
— even though the view is computed by an independent
sort-then-drop-duplicates path. -/
theorem claim_C9_latest_matches_last_seen (archive : List Fix) (cutoff : Int) (r : Fix)
    (h : r ∈ latestRows archive cutoff) :
    lastSeenOf archive r.buoy_id = some r.timestamp := by
  have hded : r ∈ dedupFirst (fun r => r.buoy_id) (sortTsDesc (activeRows archive cutoff)) :=
    (List.mem_insertionSort _).mp h
  have hsortmem : r ∈ sortTsDesc (activeRows archive cutoff) :=
    mem_of_mem_dedupFirst _ _ r hded
  have hact : r ∈ activeRows archive cutoff := (List.mem_insertionSort _).mp hsortmem
  have hrarch : r ∈ archive := List.mem_of_mem_filter hact
  have hractive : r.buoy_id ∈ activeIds archive cutoff := by
    have := (List.mem_filter.mp hact).2
    simpa using this
  have hsorted : (sortTsDesc (activeRows archive cutoff)).Sorted
      (fun a b : Fix => b.timestamp ≤ a.timestamp) :=
    List.sorted_insertionSort _ _
  have hub : ∀ s ∈ archive, s.buoy_id = r.buoy_id → s.timestamp ≤ r.timestamp := by
    intro s hs hk
    have hsact : s ∈ activeRows archive cutoff :=
      List.mem_filter.mpr ⟨hs, by simpa [hk] using hractive⟩
    have hsmem : s ∈ sortTsDesc (activeRows archive cutoff) :=
      (List.mem_insertionSort _).mpr hsact
    have hded' : r ∈ dedupFirstAux (fun r : Fix => r.buoy_id) []
        (sortTsDesc (activeRows archive cutoff)) := hded
    exact dedupFirstAux_dominates (fun r => r.buoy_id) (fun r => r.timestamp) [] _
      hsorted r hded' s hsmem hk
  have hmem : r.timestamp ∈ (archive.filter (fun s => s.buoy_id = r.buoy_id)).map
      (fun s => s.timestamp) :=
    List.mem_map.mpr ⟨r, List.mem_filter.mpr ⟨hrarch, by simp⟩, rfl⟩
  have hub' : ∀ x ∈ (archive.filter (fun s => s.buoy_id = r.buoy_id)).map
      (fun s => s.timestamp), x ≤ r.timestamp := by
    intro x hx
    obtain ⟨s, hsf, hst⟩ := List.mem_map.mp hx
    have hsm := List.mem_filter.mp hsf
    exact hst ▸ hub s hsm.1 (by simpa using hsm.2)
  exact maxTs_eq_some hmem hub'

/-- A second, newer fix for the same buoy as `soloRow`. -/
def newerRow : Fix := ⟨"BUOY1", 200, 1, 1, none, none⟩

theorem claim_C9_witness :
    lastSeenOf [soloRow, newerRow] "BUOY1" = some 200 ∧
    latestRows [soloRow, newerRow] 50 = [newerRow] :=
  ⟨claim_C9_latest_matches_last_seen [soloRow, newerRow] 50 newerRow (by decide),
    by decide⟩

-- ---------------------------------------------------------------------------
-- Containment classifier (source lines 304-314)
--
-- The source delegates point-in-polygon tests to shapely
-- (an external dependency, not repository code):
-- `Polygon.contains(Point p)` holds iff `p` lies in the open interior,
-- and `Polygon.touches(Point p)` holds iff `p` lies on the boundary
-- (the point's interior meets the polygon but not the polygon's interior).
-- Those two predicates are modelled here over exact rationals: boundary
-- membership is exact on-segment incidence, interior membership is even-odd
-- ray crossing restricted to off-boundary points.
-- ---------------------------------------------------------------------------

/-- A point in decimal degrees, `(lon, lat)` like shapely's `Point(lon, lat)`. -/
abbrev Pt := Rat × Rat

/-- `p` lies on the closed segment from `a` to `b`: cross product vanishes
(collinearity) and `p` is inside the bounding box of the segment. -/
def onSegment (a b p : Pt) : Bool :=
  decide ((b.1 - a.1) * (p.2 - a.2) = (b.2 - a.2) * (p.1 - a.1)) &&
  decide (min a.1 b.1 ≤ p.1) && decide (p.1 ≤ max a.1 b.1) &&
  decide (min a.2 b.2 ≤ p.2) && decide (p.2 ≤ max a.2 b.2)

/-- The edges of a polygon given as a closed ring of vertices
(first vertex equal to the last, as produced by the polygon loader). -/
def polyEdges (poly : List Pt) : List (Pt × Pt) := poly.zip poly.tail

/-- `p` lies on the boundary of the polygon: on some edge. -/
def onBoundary (poly : List Pt) (p : Pt) : Bool :=
  (polyEdges poly).any (fun e => onSegment e.1 e.2 p)

/-- The edge `e` crosses the horizontal ray from `p` towards `+x`
(standard even-odd crossing test). -/
def edgeCrosses (p : Pt) (e : Pt × Pt) : Bool :=
  let a := e.1
  let b := e.2
  (decide (p.2 < a.2) != decide (p.2 < b.2)) &&
  decide (p.1 < a.1 + (b.1 - a.1) * (p.2 - a.2) / (b.2 - a.2))

/-- Even-odd crossing parity of the ray from `p`. -/
def oddCrossings (poly : List Pt) (p : Pt) : Bool :=
  decide ((polyEdges poly).countP (fun e => edgeCrosses p e) % 2 = 1)

/-- shapely `polygon.contains(Point p)`: membership of `p` in the open
interior of the polygon. -/
def polyContains (poly : List Pt) (p : Pt) : Bool :=
  !(onBoundary poly p) && oddCrossings poly p

/-- shapely `polygon.touches(Point p)`: for a point argument, membership of
`p` in the boundary of the polygon. -/
def polyTouches (poly : List Pt) (p : Pt) : Bool := onBoundary poly p

/-- `inside_any(lon, lat)` from the source (lines 309-312): the point is
contained in or touches either polygon. -/
def inside_any (deployment_poly operational_poly : List Pt) (lon lat : Rat) : Bool :=
  polyContains deployment_poly (lon, lat) || polyTouches deployment_poly (lon, lat) ||
  polyContains operational_poly (lon, lat) || polyTouches operational_poly (lon, lat)

/-- The classification step (source lines 304-314): `in_area` is reset to
`False` for the whole archive and recomputed via `inside_any` only when
BOTH polygons were successfully built; otherwise every row keeps `False`. -/
def classifyArchive (dep op : Option (List Pt)) (rows : List Fix) : List (Fix × Bool) :=
  match dep, op with
  | some d, some o => rows.map (fun r => (r, inside_any d o r.lon r.lat))
  | _, _ => rows.map (fun r => (r, false))

/-- Spec-side region predicate (written from the spec's words, for the C4
refinement): the point lies strictly inside OR exactly on the boundary of
the polygon. -/
def insideOrOnBoundary (poly : List Pt) (p : Pt) : Bool :=
  polyContains poly p || onBoundary poly p

/-- C4: when both polygons are available, a point classifies
`in_area = True` iff it lies strictly inside or exactly on the boundary of
at least one of the two polygons; in particular a point exactly on an edge
of either polygon classifies `True`. -/
theorem claim_C4_boundary_inclusive_union :
    (∀ dep op lon lat, inside_any dep op lon lat =
      (insideOrOnBoundary dep (lon, lat) || insideOrOnBoundary op (lon, lat))) ∧
    (∀ dep op lon lat, onBoundary dep (lon, lat) = true →
      inside_any dep op lon lat = true) ∧
    (∀ dep op lon lat, onBoundary op (lon, lat) = true →
      inside_any dep op lon lat = true) := by
  refine ⟨?_, ?_, ?_⟩
  · intro dep op lon lat
    simp [inside_any, insideOrOnBoundary, polyTouches, Bool.or_assoc]
  · intro dep op lon lat h
    simp [inside_any, polyTouches, h]
  · intro dep op lon lat h
    simp [inside_any, polyTouches, h]

/-- A concrete square ring (closed: first vertex repeated at the end). -/
def squarePoly : List Pt := [(0, 0), (4, 0), (4, 4), (0, 4), (0, 0)]

theorem claim_C4_witness :
    onBoundary squarePoly (2, 0) = true ∧
    inside_any squarePoly squarePoly 2 0 = true :=
  ⟨by with_unfolding_all decide,
    claim_C4_boundary_inclusive_union.2.1 squarePoly squarePoly 2 0
      (by with_unfolding_all decide)⟩

/-- A row whose position `(lon, lat) = (2, 2)` is strictly inside
`squarePoly`. -/
def insideRow : Fix := ⟨"BUOY1", 100, 2, 2, none, none⟩

/-- C1 counterexample: the claim says that when exactly one polygon is
unavailable the available polygon still contributes matches.  In the code,
classification runs only when BOTH polygons are available: with the
deployment polygon present and the operational polygon unavailable, a point
strictly inside the deployment polygon still classifies `in_area = false`. -/
theorem claim_C1_counterexample :
    polyContains squarePoly (2, 2) = true ∧
    classifyArchive (some squarePoly) none [insideRow] = [(insideRow, false)] :=
  ⟨by with_unfolding_all decide, by decide⟩

/-- C1 (amended): the classifier contributes matches only when both
polygons are available — whenever either polygon (deployment or
operational) is unavailable, every point classifies `in_area = false`. -/
theorem claim_C1_amended_one_missing_all_false (dep op : Option (List Pt))
    (rows : List Fix) (h : dep = none ∨ op = none) :
    ∀ e ∈ classifyArchive dep op rows, e.2 = false := by
  intro e he
  have hmap : e ∈ rows.map (fun r => (r, false)) := by
    rcases h with h | h
    · subst h
      cases op <;> simpa [classifyArchive] using he
    · subst h
      cases dep <;> simpa [classifyArchive] using he
  obtain ⟨r, _, hr⟩ := List.mem_map.mp hmap
  rw [← hr]

theorem claim_C1_witness : ((insideRow, false) : Fix × Bool).2 = false :=
  claim_C1_amended_one_missing_all_false (some squarePoly) none [insideRow]
    (Or.inr rfl) (insideRow, false) (by decide)

-- ---------------------------------------------------------------------------
-- Coordinate normalizer `dms_to_dd` (source lines 41-85)
--
-- The source works with Python regexes over the stripped, glyph-normalised,
-- hemisphere-free string:
--   pattern 1: (-?\d+)\D+(\d+)\D+(\d+(?:\.\d+)?)     (degrees-minutes-seconds)
--   pattern 2: (-?\d+)\D+(\d+(?:\.\d+)?)             (degrees-minutes)
-- `re.search` takes the leftmost matching start position.  Because `\d` and
-- `\D` are complementary character classes, greedy scanning without
-- backtracking matches at a given start iff the Python regex does, with the
-- same group captures: giving characters back from a `\d+` can only place a
-- non-digit in front of a following `\D`-or-digit requirement and vice
-- versa.  `\d` is modelled as the ASCII digits the inputs contain.
-- ---------------------------------------------------------------------------

/-- ASCII apostrophe (minute mark), written via its code point. -/
def minuteMark : Char := Char.ofNat 39

/-- ASCII double quote (second mark), written via its code point. -/
def secondMark : Char := Char.ofNat 34

/-- Python `str.strip()` whitespace (the ASCII whitespace characters). -/
def isPySpace (c : Char) : Bool :=
  c = ' ' || c = Char.ofNat 9 || c = Char.ofNat 10 || c = Char.ofNat 13 ||
  c = Char.ofNat 11 || c = Char.ofNat 12

/-- `s.strip()` on a character list. -/
def stripChars (cs : List Char) : List Char :=
  ((cs.dropWhile isPySpace).reverse.dropWhile isPySpace).reverse

/-- The glyph normalisation of source line 50: curly quotation-mark and
prime variants are replaced by the plain minute/second marks.
(U+2019 and U+2032 become the apostrophe; U+201D and U+2033 become the
double quote.  The replacement targets are never replacement sources, so
the four sequential `str.replace` calls equal one character map.) -/
def glyphFix (c : Char) : Char :=
  if c = Char.ofNat 8217 then minuteMark
  else if c = Char.ofNat 8221 then secondMark
  else if c = Char.ofNat 8243 then secondMark
  else if c = Char.ofNat 8242 then minuteMark
  else c

/-- A hemisphere letter, `[NnSsEeWw]`. -/
def isHemChar (c : Char) : Bool :=
  c = 'N' || c = 'n' || c = 'S' || c = 's' || c = 'E' || c = 'e' || c = 'W' || c = 'w'

/-- The input after `strip()` and glyph normalisation (source lines 48-50). -/
def normChars (s : String) : List Char := (stripChars s.toList).map glyphFix

/-- `re.findall(r'[NnSsEeWw]', s)[-1].upper()` when a hemisphere letter is
present (source lines 53-54): the LAST match, uppercased. -/
def hemOf (s : String) : Option Char :=
  (((normChars s).filter isHemChar).map Char.toUpper).getLast?

/-- `s_numeric` (source line 57): hemisphere letters removed. -/
def numericChars (s : String) : List Char :=
  (normChars s).filter (fun c => !isHemChar c)

/-- Integer value of a digit run (what `float` does to, e.g., `"045"`). -/
def digitsVal (ds : List Char) : Nat :=
  ds.foldl (fun n c => 10 * n + (c.toNat - 48)) 0

/-- Value of a fractional digit block: `fracVal f = 0.f`; zero when empty. -/
def fracVal (ds : List Char) : Rat :=
  (digitsVal ds : Rat) / ((10 : Rat) ^ ds.length)

/-- Captures of pattern 1 `(-?\d+)\D+(\d+)\D+(\d+(?:\.\d+)?)`:
sign of group 1, the three digit runs, and the optional fractional digits
of group 3 (empty when the optional part did not match). -/
structure DMSMatch where
  neg : Bool
  degDigits : List Char
  minDigits : List Char
  secDigits : List Char
  secFrac : List Char
deriving DecidableEq, Repr

/-- Captures of pattern 2 `(-?\d+)\D+(\d+(?:\.\d+)?)`. -/
structure DMMatch where
  neg : Bool
  degDigits : List Char
  minDigits : List Char
  minFrac : List Char
deriving DecidableEq, Repr

/-- Match pattern 1 anchored at the start of `cs` (see the header comment:
greedy complementary-class scanning coincides with Python's backtracking). -/
def pat1At (cs : List Char) : Option DMSMatch :=
  let (neg, cs1) :=
    match cs with
    | c :: rest => if c = '-' then (true, rest) else (false, cs)
    | [] => (false, cs)
  let d1 := cs1.takeWhile Char.isDigit
  let r1 := cs1.dropWhile Char.isDigit
  if d1 = [] then none
  else
    let sep1 := r1.takeWhile (fun c => !c.isDigit)
    let r2 := r1.dropWhile (fun c => !c.isDigit)
    if sep1 = [] then none
    else
      let d2 := r2.takeWhile Char.isDigit
      let r3 := r2.dropWhile Char.isDigit
      if d2 = [] then none
      else
        let sep2 := r3.takeWhile (fun c => !c.isDigit)
        let r4 := r3.dropWhile (fun c => !c.isDigit)
        if sep2 = [] then none
        else
          let d3 := r4.takeWhile Char.isDigit
          let r5 := r4.dropWhile Char.isDigit
          if d3 = [] then none
          else
            match r5 with
            | c :: r6 =>
              if c = '.' then
                let fr := r6.takeWhile Char.isDigit
                if fr = [] then some ⟨neg, d1, d2, d3, []⟩
                else some ⟨neg, d1, d2, d3, fr⟩
              else some ⟨neg, d1, d2, d3, []⟩
            | [] => some ⟨neg, d1, d2, d3, []⟩

/-- Match pattern 2 anchored at the start of `cs`. -/
def pat2At (cs : List Char) : Option DMMatch :=
  let (neg, cs1) :=
    match cs with
    | c :: rest => if c = '-' then (true, rest) else (false, cs)
    | [] => (false, cs)
  let d1 := cs1.takeWhile Char.isDigit
  let r1 := cs1.dropWhile Char.isDigit
  if d1 = [] then none
  else
    let sep1 := r1.takeWhile (fun c => !c.isDigit)
    let r2 := r1.dropWhile (fun c => !c.isDigit)
    if sep1 = [] then none
    else
      let d2 := r2.takeWhile Char.isDigit
      let r3 := r2.dropWhile Char.isDigit
      if d2 = [] then none
      else
        match r3 with
        | c :: r4 =>
          if c = '.' then
            let fr := r4.takeWhile Char.isDigit
            if fr = [] then some ⟨neg, d1, d2, []⟩
            else some ⟨neg, d1, d2, fr⟩
          else some ⟨neg, d1, d2, []⟩
        | [] => some ⟨neg, d1, d2, []⟩

/-- `re.search` for pattern 1: leftmost matching start position. -/
def search1 : List Char → Option DMSMatch
  | [] => pat1At []
  | c :: cs =>
    match pat1At (c :: cs) with
    | some m => some m
    | none => search1 cs

/-- `re.search` for pattern 2: leftmost matching start position. -/
def search2 : List Char → Option DMMatch
  | [] => pat2At []
  | c :: cs =>
    match pat2At (c :: cs) with
    | some m => some m
    | none => search2 cs

/-- `float(m.group(1))`: signed degree value of a pattern-1 match. -/
def deg1Val (m : DMSMatch) : Rat :=
  if m.neg then -(digitsVal m.degDigits : Rat) else (digitsVal m.degDigits : Rat)

/-- `float(m.group(2))` of a pattern-1 match. -/
def min1Val (m : DMSMatch) : Rat := (digitsVal m.minDigits : Rat)

/-- `float(m.group(3))` of a pattern-1 match (integer part plus optional
fraction; `fracVal [] = 0`). -/
def sec1Val (m : DMSMatch) : Rat := (digitsVal m.secDigits : Rat) + fracVal m.secFrac

/-- `float(m2.group(1))` of a pattern-2 match. -/
def deg2Val (m : DMMatch) : Rat :=
  if m.neg then -(digitsVal m.degDigits : Rat) else (digitsVal m.degDigits : Rat)

/-- `float(m2.group(2))` of a pattern-2 match. -/
def min2Val (m : DMMatch) : Rat := (digitsVal m.minDigits : Rat) + fracVal m.minFrac

/-- The `(deg, minutes, sec)` triple the source computes (lines 59-72):
pattern 1 first; on failure pattern 2 with `sec = 0`; `none` when neither
pattern matches anywhere (the raised ValueError). -/
def dmsGroups (s : String) : Option (Rat × Rat × Rat) :=
  match search1 (numericChars s) with
  | some m => some (deg1Val m, min1Val m, sec1Val m)
  | none =>
    match search2 (numericChars s) with
    | some m => some (deg2Val m, min2Val m, 0)
    | none => none

/-- The sign application of source lines 77-83: Python's
`if hem in ('S','W') / elif hem in ('N','E') / else: sign of deg`. -/
def applyHem (hem : Option Char) (deg dd : Rat) : Rat :=
  if hem = some 'S' ∨ hem = some 'W' then -dd
  else if hem = some 'N' ∨ hem = some 'E' then dd
  else if deg < 0 then -dd else dd

/-- `dms_to_dd` (source lines 41-85); `none` models the raised ValueError. -/
def dms_to_dd (s : String) : Option Rat :=
  match dmsGroups s with
  | none => none
  | some (deg, minutes, sec) =>
    some (applyHem (hemOf s) deg (|deg| + minutes / 60 + sec / 3600))

theorem fracVal_nonneg (ds : List Char) : 0 ≤ fracVal ds := by
  unfold fracVal
  positivity

theorem dmsGroups_nonneg {s : String} {d m sec : Rat}
    (h : dmsGroups s = some (d, m, sec)) : 0 ≤ m ∧ 0 ≤ sec := by
  unfold dmsGroups at h
  cases h1 : search1 (numericChars s) with
  | some mm =>
    rw [h1] at h
    simp only [Option.some.injEq, Prod.mk.injEq] at h
    obtain ⟨-, hm, hs⟩ := h
    subst hm
    subst hs
    refine ⟨by unfold min1Val; positivity, ?_⟩
    unfold sec1Val
    have := fracVal_nonneg mm.secFrac
    positivity
  | none =>
    rw [h1] at h
    cases h2 : search2 (numericChars s) with
    | some mm =>
      rw [h2] at h
      simp only [Option.some.injEq, Prod.mk.injEq] at h
      obtain ⟨-, hm, hs⟩ := h
      subst hm
      subst hs
      refine ⟨?_, le_refl 0⟩
      unfold min2Val
      have := fracVal_nonneg mm.minFrac
      positivity
    | none =>
      rw [h2] at h
      exact absurd h (by simp)

/-- C7: whenever `dms_to_dd` parses successfully, the result's magnitude is
`|degrees| + minutes/60 + seconds/3600` over the parsed groups, and its sign
is: negated for a last hemisphere letter S or W; kept for N or E; and, with
no hemisphere letter, negated exactly when the parsed degree value is
negative. -/
theorem claim_C7_sign_and_magnitude (s : String) (v : Rat) (h : dms_to_dd s = some v) :
    ∃ deg minutes sec : Rat, dmsGroups s = some (deg, minutes, sec) ∧
      |v| = |deg| + minutes / 60 + sec / 3600 ∧
      v = (if hemOf s = some 'S' ∨ hemOf s = some 'W' then
             -(|deg| + minutes / 60 + sec / 3600)
           else if hemOf s = some 'N' ∨ hemOf s = some 'E' then
             |deg| + minutes / 60 + sec / 3600
           else if deg < 0 then -(|deg| + minutes / 60 + sec / 3600)
           else |deg| + minutes / 60 + sec / 3600) := by
  unfold dms_to_dd at h
  cases hg : dmsGroups s with
  | none => rw [hg] at h; exact absurd h (by simp)
  | some g =>
    obtain ⟨deg, minutes, sec⟩ := g
    rw [hg] at h
    simp only [Option.some.injEq] at h
    obtain ⟨hm, hs⟩ := dmsGroups_nonneg hg
    have hnn : 0 ≤ |deg| + minutes / 60 + sec / 3600 := by
      have h1 : 0 ≤ minutes / 60 := div_nonneg hm (by norm_num)
      have h2 : 0 ≤ sec / 3600 := div_nonneg hs (by norm_num)
      have h3 : 0 ≤ |deg| := abs_nonneg deg
      linarith
    refine ⟨deg, minutes, sec, rfl, ?_, ?_⟩
    · rw [← h]
      unfold applyHem
      by_cases h1 : hemOf s = some 'S' ∨ hemOf s = some 'W'
      · rw [if_pos h1, abs_neg, abs_of_nonneg hnn]
      · rw [if_neg h1]
        by_cases h2 : hemOf s = some 'N' ∨ hemOf s = some 'E'
        · rw [if_pos h2, abs_of_nonneg hnn]
        · rw [if_neg h2]
          by_cases h3 : deg < 0
          · rw [if_pos h3, abs_neg, abs_of_nonneg hnn]
          · rw [if_neg h3, abs_of_nonneg hnn]
    · rw [← h]
      rfl

/-- The spec's round-trip example string, `3°45'33.1"S`, built explicitly. -/
def dmsSample : String :=
  String.mk ['3', '°', '4', '5', minuteMark, '3', '3', '.', '1', secondMark, 'S']

set_option maxRecDepth 4000 in
theorem claim_C7_witness :
    ∃ deg minutes sec : Rat, dmsGroups dmsSample = some (deg, minutes, sec) ∧
      |(-(135331 / 36000) : Rat)| = |deg| + minutes / 60 + sec / 3600 ∧
      (-(135331 / 36000) : Rat) =
        (if hemOf dmsSample = some 'S' ∨ hemOf dmsSample = some 'W' then
           -(|deg| + minutes / 60 + sec / 3600)
         else if hemOf dmsSample = some 'N' ∨ hemOf dmsSample = some 'E' then
           |deg| + minutes / 60 + sec / 3600
         else if deg < 0 then -(|deg| + minutes / 60 + sec / 3600)
         else |deg| + minutes / 60 + sec / 3600) :=
  claim_C7_sign_and_magnitude dmsSample (-(135331 / 36000)) (by
    have hsearch : search1 (numericChars dmsSample) =
        some ⟨false, ['3'], ['4', '5'], ['3', '3'], ['1']⟩ := by decide
    have hhem : hemOf dmsSample = some 'S' := by decide
    have hg : dmsGroups dmsSample =
        some (deg1Val ⟨false, ['3'], ['4', '5'], ['3', '3'], ['1']⟩,
          min1Val ⟨false, ['3'], ['4', '5'], ['3', '3'], ['1']⟩,
          sec1Val ⟨false, ['3'], ['4', '5'], ['3', '3'], ['1']⟩) := by
      unfold dmsGroups
      rw [hsearch]
    have e1 : digitsVal ['3'] = 3 := by decide
    have e2 : digitsVal ['4', '5'] = 45 := by decide
    have e3 : digitsVal ['3', '3'] = 33 := by decide
    have e4 : digitsVal ['1'] = 1 := by decide
    unfold dms_to_dd
    rw [hg, hhem]
    simp only [deg1Val, min1Val, sec1Val, fracVal, applyHem, e1, e2, e3, e4]
    norm_num)

-- ---------------------------------------------------------------------------
-- C10: plain decimal-degree strings are misread as degrees-minutes
-- ---------------------------------------------------------------------------

/-- The ASCII character of a decimal digit. -/
def digitChar (x : Fin 10) : Char := Char.ofNat (48 + x.val)

/-- Integer value of a digit-group (most significant first). -/
def natOfDigits (ds : List (Fin 10)) : Nat := ds.foldl (fun n x => 10 * n + x.val) 0

theorem digitChar_isDigit (x : Fin 10) : (digitChar x).isDigit = true := by
  fin_cases x <;> decide

theorem digitChar_not_hem (x : Fin 10) : isHemChar (digitChar x) = false := by
  fin_cases x <;> decide

theorem digitChar_glyphFix (x : Fin 10) : glyphFix (digitChar x) = digitChar x := by
  fin_cases x <;> decide

theorem digitChar_not_space (x : Fin 10) : isPySpace (digitChar x) = false := by
  fin_cases x <;> decide

theorem digitChar_ne_minus (x : Fin 10) : digitChar x ≠ '-' := by
  fin_cases x <;> decide

theorem digitChar_toNat (x : Fin 10) : (digitChar x).toNat = 48 + x.val := by
  fin_cases x <;> decide

theorem takeWhile_all_true {p : Char → Bool} :
    ∀ {l : List Char}, (∀ c ∈ l, p c = true) → l.takeWhile p = l := by
  intro l
  induction l with
  | nil => intro _; rfl
  | cons x xs ih =>
    intro h
    rw [List.takeWhile_cons, h x (List.mem_cons_self _ _),
      ih (fun c hc => h c (List.mem_cons_of_mem _ hc))]
    simp

theorem dropWhile_all_true {p : Char → Bool} :
    ∀ {l : List Char}, (∀ c ∈ l, p c = true) → l.dropWhile p = [] := by
  intro l
  induction l with
  | nil => intro _; rfl
  | cons x xs ih =>
    intro h
    rw [List.dropWhile_cons, h x (List.mem_cons_self _ _)]
    simp only [if_true]
    exact ih (fun c hc => h c (List.mem_cons_of_mem _ hc))

theorem dropWhile_all_false {p : Char → Bool} :
    ∀ {l : List Char}, (∀ c ∈ l, p c = false) → l.dropWhile p = l := by
  intro l
  cases l with
  | nil => intro _; rfl
  | cons x xs =>
    intro h
    rw [List.dropWhile_cons, h x (List.mem_cons_self _ _)]
    simp

theorem takeWhile_append_stop {p : Char → Bool} :
    ∀ (as : List Char) {b : Char} (bs : List Char), (∀ c ∈ as, p c = true) → p b = false →
      (as ++ b :: bs).takeWhile p = as := by
  intro as
  induction as with
  | nil =>
    intro b bs _ hb
    rw [List.nil_append, List.takeWhile_cons, hb]
    rfl
  | cons a as ih =>
    intro b bs h hb
    rw [List.cons_append, List.takeWhile_cons, h a (List.mem_cons_self _ _)]
    simp only [if_true]
    rw [ih bs (fun c hc => h c (List.mem_cons_of_mem _ hc)) hb]

theorem dropWhile_append_stop {p : Char → Bool} :
    ∀ (as : List Char) {b : Char} (bs : List Char), (∀ c ∈ as, p c = true) → p b = false →
      (as ++ b :: bs).dropWhile p = b :: bs := by
  intro as
  induction as with
  | nil =>
    intro b bs _ hb
    rw [List.nil_append, List.dropWhile_cons, hb]
    rfl
  | cons a as ih =>
    intro b bs h hb
    rw [List.cons_append, List.dropWhile_cons, h a (List.mem_cons_self _ _)]
    simp only [if_true]
    exact ih bs (fun c hc => h c (List.mem_cons_of_mem _ hc)) hb

theorem map_eq_self_of_fixed {g : Char → Char} :
    ∀ {l : List Char}, (∀ c ∈ l, g c = c) → l.map g = l := by
  intro l
  induction l with
  | nil => intro _; rfl
  | cons x xs ih =>
    intro h
    rw [List.map_cons, h x (List.mem_cons_self _ _), ih (fun c hc => h c (List.mem_cons_of_mem _ hc))]

/-- Pattern 1 cannot match at the start of an all-digit string: there is no
nonempty `\D+` separator after the first digit group. -/
theorem pat1At_none_all_digits (cs : List Char) (h : ∀ c ∈ cs, c.isDigit = true) :
    pat1At cs = none := by
  cases cs with
  | nil => rfl
  | cons a as =>
    have ha := h a (List.mem_cons_self _ _)
    have hne : ¬(a = '-') := by
      intro he
      rw [he] at ha
      exact absurd ha (by decide)
    unfold pat1At
    simp only [hne, if_false]
    rw [takeWhile_all_true h, dropWhile_all_true h]
    simp

/-- Pattern 1 cannot match a digits-dot-digits string at its start: the
string holds only two digit groups. -/
theorem pat1At_none_digits_dot (as bs : List Char)
    (ha : ∀ c ∈ as, c.isDigit = true) (hb : ∀ c ∈ bs, c.isDigit = true) :
    pat1At (as ++ '.' :: bs) = none := by
  cases as with
  | nil =>
    rw [List.nil_append]
    unfold pat1At
    simp
  | cons a as' =>
    have haa := ha a (List.mem_cons_self _ _)
    have hne : ¬(a = '-') := by
      intro he
      rw [he] at haa
      exact absurd haa (by decide)
    have ha' : ∀ c ∈ as', c.isDigit = true := fun c hc => ha c (List.mem_cons_of_mem _ hc)
    have ht1 : (a :: (as' ++ '.' :: bs)).takeWhile Char.isDigit = a :: as' := by
      rw [← List.cons_append]
      exact takeWhile_append_stop _ _ ha (by decide)
    have hd1 : (a :: (as' ++ '.' :: bs)).dropWhile Char.isDigit = '.' :: bs := by
      rw [← List.cons_append]
      exact dropWhile_append_stop _ _ ha (by decide)
    rw [List.cons_append]
    unfold pat1At
    simp only [hne, if_false, ht1, hd1]
    cases bs with
    | nil => simp
    | cons b bs' =>
      have hbd := hb b (List.mem_cons_self _ _)
      have hsep : ('.' :: b :: bs').takeWhile (fun c => !c.isDigit) = ['.'] := by
        rw [show ('.' :: b :: bs') = ['.'] ++ b :: bs' from rfl]
        exact takeWhile_append_stop _ _ (by intro c hc; simp at hc; rw [hc]; decide)
          (by simp [hbd])
      have hr2 : ('.' :: b :: bs').dropWhile (fun c => !c.isDigit) = b :: bs' := by
        rw [show ('.' :: b :: bs') = ['.'] ++ b :: bs' from rfl]
        exact dropWhile_append_stop _ _ (by intro c hc; simp at hc; rw [hc]; decide)
          (by simp [hbd])
      simp only [hsep, hr2, takeWhile_all_true hb, dropWhile_all_true hb]
      simp


theorem search1_none_all_digits :
    ∀ (cs : List Char), (∀ c ∈ cs, c.isDigit = true) → search1 cs = none := by
  intro cs
  induction cs with
  | nil => intro _; rfl
  | cons a as ih =>
    intro h
    simp only [search1, pat1At_none_all_digits _ h]
    exact ih (fun c hc => h c (List.mem_cons_of_mem _ hc))

theorem search1_none_digits_dot :
    ∀ (as bs : List Char), (∀ c ∈ as, c.isDigit = true) → (∀ c ∈ bs, c.isDigit = true) →
      search1 (as ++ '.' :: bs) = none := by
  intro as
  induction as with
  | nil =>
    intro bs _ hb
    rw [List.nil_append]
    have hp := pat1At_none_digits_dot [] bs (by simp) hb
    rw [List.nil_append] at hp
    simp only [search1, hp]
    exact search1_none_all_digits bs hb
  | cons a as' ih =>
    intro bs ha hb
    have hp := pat1At_none_digits_dot (a :: as') bs ha hb
    rw [List.cons_append] at hp
    rw [List.cons_append]
    simp only [search1, hp]
    exact ih bs (fun c hc => ha c (List.mem_cons_of_mem _ hc)) hb

/-- Pattern 2 matches a digits-dot-digits string at position 0, capturing
the two digit groups as degrees and minutes (the dot is swallowed by the
`\D+` separator, not read as a decimal point). -/
theorem pat2At_digits_dot (a : Char) (as : List Char) (b : Char) (bs : List Char)
    (ha : ∀ c ∈ a :: as, c.isDigit = true) (hb : ∀ c ∈ b :: bs, c.isDigit = true) :
    pat2At ((a :: as) ++ '.' :: b :: bs) = some ⟨false, a :: as, b :: bs, []⟩ := by
  have haa := ha a (List.mem_cons_self _ _)
  have hne : ¬(a = '-') := by
    intro he
    rw [he] at haa
    exact absurd haa (by decide)
  have hbd := hb b (List.mem_cons_self _ _)
  have ht1 : (a :: (as ++ '.' :: b :: bs)).takeWhile Char.isDigit = a :: as := by
    rw [← List.cons_append]
    exact takeWhile_append_stop _ _ ha (by decide)
  have hd1 : (a :: (as ++ '.' :: b :: bs)).dropWhile Char.isDigit = '.' :: b :: bs := by
    rw [← List.cons_append]
    exact dropWhile_append_stop _ _ ha (by decide)
  have hsep : ('.' :: b :: bs).takeWhile (fun c => !c.isDigit) = ['.'] := by
    rw [show ('.' :: b :: bs) = ['.'] ++ b :: bs from rfl]
    exact takeWhile_append_stop _ _ (by intro c hc; simp at hc; rw [hc]; decide)
      (by simp [hbd])
  have hr2 : ('.' :: b :: bs).dropWhile (fun c => !c.isDigit) = b :: bs := by
    rw [show ('.' :: b :: bs) = ['.'] ++ b :: bs from rfl]
    exact dropWhile_append_stop _ _ (by intro c hc; simp at hc; rw [hc]; decide)
      (by simp [hbd])
  rw [List.cons_append]
  unfold pat2At
  simp only [hne, if_false, ht1, hd1, hsep, hr2, takeWhile_all_true hb, dropWhile_all_true hb]
  simp

theorem search2_digits_dot (a : Char) (as : List Char) (b : Char) (bs : List Char)
    (ha : ∀ c ∈ a :: as, c.isDigit = true) (hb : ∀ c ∈ b :: bs, c.isDigit = true) :
    search2 ((a :: as) ++ '.' :: b :: bs) = some ⟨false, a :: as, b :: bs, []⟩ := by
  have hp := pat2At_digits_dot a as b bs ha hb
  rw [List.cons_append] at hp
  rw [List.cons_append]
  simp only [search2, hp]


/-- On input consisting of digits and dots, every normalisation stage of
`dms_to_dd` is the identity. -/
theorem numericChars_id (L : List Char)
    (h : ∀ c ∈ L, isPySpace c = false ∧ glyphFix c = c ∧ isHemChar c = false) :
    numericChars (String.mk L) = L := by
  have htl : (String.mk L).toList = L := rfl
  have hstrip : stripChars L = L := by
    unfold stripChars
    rw [dropWhile_all_false (fun c hc => (h c hc).1)]
    rw [dropWhile_all_false (fun c hc => (h c (List.mem_reverse.mp hc)).1)]
    exact List.reverse_reverse L
  unfold numericChars normChars
  rw [htl, hstrip, map_eq_self_of_fixed (fun c hc => (h c hc).2.1)]
  rw [List.filter_eq_self.mpr]
  intro c hc
  simp [(h c hc).2.2]

theorem hemOf_none (L : List Char)
    (h : ∀ c ∈ L, isPySpace c = false ∧ glyphFix c = c ∧ isHemChar c = false) :
    hemOf (String.mk L) = none := by
  have htl : (String.mk L).toList = L := rfl
  have hstrip : stripChars L = L := by
    unfold stripChars
    rw [dropWhile_all_false (fun c hc => (h c hc).1)]
    rw [dropWhile_all_false (fun c hc => (h c (List.mem_reverse.mp hc)).1)]
    exact List.reverse_reverse L
  unfold hemOf normChars
  rw [htl, hstrip, map_eq_self_of_fixed (fun c hc => (h c hc).2.1)]
  rw [List.filter_eq_nil_iff.mpr]
  · rfl
  · intro c hc
    simp [(h c hc).2.2]

theorem digitsVal_map_aux :
    ∀ (d : List (Fin 10)) (n : Nat),
      (d.map digitChar).foldl (fun n c => 10 * n + (c.toNat - 48)) n =
        d.foldl (fun n x => 10 * n + x.val) n := by
  intro d
  induction d with
  | nil => intro n; rfl
  | cons x xs ih =>
    intro n
    rw [List.map_cons, List.foldl_cons, List.foldl_cons, digitChar_toNat]
    have he : 48 + x.val - 48 = x.val := by omega
    rw [he]
    exact ih _

theorem digitsVal_map (d : List (Fin 10)) : digitsVal (d.map digitChar) = natOfDigits d :=
  digitsVal_map_aux d 0

theorem fracVal_nil : fracVal [] = 0 := by
  unfold fracVal digitsVal
  norm_num


/-- C10: the degrees-minutes fallback treats any non-digit run — including
a lone decimal point — as a group separator, so a plain decimal-degree
string with no DMS marks and no hemisphere is misread as degrees and
minutes: for every input of the form `<d>.<f>` with digit groups `d` and
`f`, `dms_to_dd` returns `d + f/60` (not the decimal value, and not a
failure). -/
theorem claim_C10_decimal_misread (d f : List (Fin 10)) (hd : d ≠ []) (hf : f ≠ []) :
    dms_to_dd (String.mk (d.map digitChar ++ '.' :: f.map digitChar)) =
      some ((natOfDigits d : Rat) + (natOfDigits f : Rat) / 60) := by
  obtain ⟨a, as, rfl⟩ := List.exists_cons_of_ne_nil hd
  obtain ⟨b, bs, rfl⟩ := List.exists_cons_of_ne_nil hf
  have hA : ∀ c ∈ (a :: as).map digitChar, c.isDigit = true := by
    intro c hc
    obtain ⟨x, _, rfl⟩ := List.mem_map.mp hc
    exact digitChar_isDigit x
  have hB : ∀ c ∈ (b :: bs).map digitChar, c.isDigit = true := by
    intro c hc
    obtain ⟨x, _, rfl⟩ := List.mem_map.mp hc
    exact digitChar_isDigit x
  have hprops : ∀ c ∈ (a :: as).map digitChar ++ '.' :: (b :: bs).map digitChar,
      isPySpace c = false ∧ glyphFix c = c ∧ isHemChar c = false := by
    intro c hc
    rcases List.mem_append.mp hc with hc | hc
    · obtain ⟨x, _, rfl⟩ := List.mem_map.mp hc
      exact ⟨digitChar_not_space x, digitChar_glyphFix x, digitChar_not_hem x⟩
    · rcases List.mem_cons.mp hc with hc | hc
      · subst hc
        refine ⟨by decide, by decide, by decide⟩
      · obtain ⟨x, _, rfl⟩ := List.mem_map.mp hc
        exact ⟨digitChar_not_space x, digitChar_glyphFix x, digitChar_not_hem x⟩
  have hnum := numericChars_id _ hprops
  have hhem := hemOf_none _ hprops
  have hs1 : search1 ((a :: as).map digitChar ++ '.' :: (b :: bs).map digitChar) = none :=
    search1_none_digits_dot _ _ hA hB
  have hs2 : search2 ((a :: as).map digitChar ++ '.' :: (b :: bs).map digitChar) =
      some ⟨false, (a :: as).map digitChar, (b :: bs).map digitChar, []⟩ := by
    have := search2_digits_dot (digitChar a) (as.map digitChar) (digitChar b) (bs.map digitChar)
      (by rw [← List.map_cons]; exact hA) (by rw [← List.map_cons]; exact hB)
    rw [← List.map_cons, ← List.map_cons] at this
    exact this
  have hg : dmsGroups (String.mk ((a :: as).map digitChar ++ '.' :: (b :: bs).map digitChar)) =
      some (deg2Val ⟨false, (a :: as).map digitChar, (b :: bs).map digitChar, []⟩,
        min2Val ⟨false, (a :: as).map digitChar, (b :: bs).map digitChar, []⟩, 0) := by
    unfold dmsGroups
    rw [hnum, hs1, hs2]
  unfold dms_to_dd
  rw [hg, hhem]
  unfold applyHem deg2Val min2Val
  simp only [Option.some.injEq, fracVal_nil, digitsVal_map]
  norm_num
  rw [if_neg (by simp), if_neg (by simp), if_neg (not_lt.mpr (Nat.cast_nonneg _))]

theorem claim_C10_witness :
    dms_to_dd (String.mk (([3] : List (Fin 10)).map digitChar ++
        '.' :: ([5] : List (Fin 10)).map digitChar)) =
      some ((natOfDigits ([3] : List (Fin 10)) : Rat) +
        (natOfDigits ([5] : List (Fin 10)) : Rat) / 60) ∧
    String.mk (([3] : List (Fin 10)).map digitChar ++
        '.' :: ([5] : List (Fin 10)).map digitChar) = "3.5" ∧
    (natOfDigits ([3] : List (Fin 10)) : Rat) +
        (natOfDigits ([5] : List (Fin 10)) : Rat) / 60 = 37 / 12 ∧
    ((37 : Rat) / 12 ≠ 35 / 10) :=
  ⟨claim_C10_decimal_misread [3] [5] (by decide) (by decide),
    by decide,
    by
      have e3 : natOfDigits ([3] : List (Fin 10)) = 3 := by decide
      have e5 : natOfDigits ([5] : List (Fin 10)) = 5 := by decide
      rw [e3, e5]
      norm_num,
    by norm_num⟩

end FadTracks
